import Mathlib

/-!
Verification of the GLM loss-and-gradient core (`glm_base.cuh`, namespace `ML::GLM`).

The device code is embedded shallowly over the rationals.  A `SimpleMat` mirrors the
C++ `SimpleMat<T>` view: a row count `m`, a column count `n`, and a total entry
function `data : ℕ → ℕ → ℚ` (entries outside the `m × n` window are carried along
unchanged, the way memory outside a view is).  Matrices are stored column-major in
the source, so a flat buffer index `k` corresponds to entry `(k % m, k / m)`.

The cuBLAS / raft primitives the source calls are embedded by their documented
semantics:
* `assign_gemm α A transA B transB β C`  is  `C ← α·op(A)·op(B) + β·C`;
* the `matrixVectorOp` call in `linearFwd` broadcasts the bias vector across the
  sample columns, ignoring the previous contents (`set_bias` returns `b`);
* `raft::stats::mean(_, dZ, dZ.m, dZ.n, false, true)` is the per-row population
  mean of the `C × N` matrix `dZ`;
* `mapThenSumReduce` is a fused map-then-sum over the first `len` flat entries;
* `binaryOp` overwrites the first `len` flat entries elementwise.
-/

namespace ML.GLM

/-- Dense matrix view: shape plus a total (column-major) entry function. -/
@[ext]
structure SimpleMat where
  m : ℕ
  n : ℕ
  data : ℕ → ℕ → ℚ

/-- `op(A)`: transpose `A` when the flag is set, as in a cuBLAS gemm call. -/
def opMat (trans : Bool) (A : SimpleMat) : SimpleMat :=
  if trans then ⟨A.n, A.m, fun i j => A.data j i⟩ else A

/-- `C ← α·op(A)·op(B) + β·C` (`SimpleMat::assign_gemm`).  The inner dimension is
`op(A).n`; conformance (`op(A).n = op(B).m`) is the caller's contract, as in the
source. -/
def assign_gemm (α : ℚ) (A : SimpleMat) (transA : Bool) (B : SimpleMat)
    (transB : Bool) (β : ℚ) (C : SimpleMat) : SimpleMat :=
  ⟨C.m, C.n, fun i j =>
    α * (Finset.range (opMat transA A).n).sum
      (fun l => (opMat transA A).data i l * (opMat transB B).data l j)
    + β * C.data i j⟩

/-- `col_ref(W, bias, D)`: the single column `j` of `W` as a vector. -/
def col_ref (W : SimpleMat) (j : ℕ) : ℕ → ℚ :=
  fun i => W.data i j

/-- `col_slice(W, weights, lo, hi)`: columns `[lo, hi)` of `W`, sharing storage. -/
def col_slice (W : SimpleMat) (lo hi : ℕ) : SimpleMat :=
  ⟨W.m, hi - lo, fun i j => W.data i (lo + j)⟩

/-- Write a matrix computed through a column-slice view back into the columns
`[lo, lo + S.n)` of `G`; the other columns keep their previous contents. -/
def writeSlice (G : SimpleMat) (lo : ℕ) (S : SimpleMat) : SimpleMat :=
  ⟨G.m, G.n, fun i j => if lo ≤ j ∧ j < lo + S.n then S.data i (j - lo) else G.data i j⟩

/-- Write a vector into column `j` of `G`, leaving the other columns unchanged. -/
def setCol (G : SimpleMat) (j : ℕ) (v : ℕ → ℚ) : SimpleMat :=
  ⟨G.m, G.n, fun i k => if k = j then v i else G.data i k⟩

/-- Per-row population mean of a `C × N` matrix, the semantics of the
`raft::stats::mean(mu, dZ.data, dZ.m, dZ.n, false, true, stream)` call. -/
def meanRows (A : SimpleMat) : ℕ → ℚ :=
  fun i => (Finset.range A.n).sum (fun j => A.data i j) / (A.n : ℚ)

/-- Forward pass `linearFwd`: `Z ← W·Xᵗ + bias`, the bias branch taken iff
`X.n ≠ W.n`, exactly as in the source. -/
def linearFwd (Z X W : SimpleMat) : SimpleMat :=
  let has_bias := X.n ≠ W.n
  let D := X.n
  if has_bias then
    let bias := col_ref W D
    let weights := col_slice W 0 D
    let Zb : SimpleMat := ⟨Z.m, Z.n, fun i _j => bias i⟩
    assign_gemm 1 weights false X true 1 Zb
  else
    assign_gemm 1 W false X true 0 Z

/-- Backward pass `linearBwd`: `Gfeat ← (1/N)·dZ·X + β·Gfeat` with `β` selected by
`setZero`, and (in the bias branch, taken iff `X.n ≠ G.n`) the bias column `D`
overwritten with the per-row mean of `dZ`. -/
def linearBwd (G X dZ : SimpleMat) (setZero : Bool) : SimpleMat :=
  let has_bias := X.n ≠ G.n
  let D := X.n
  let β : ℚ := if setZero then 0 else 1
  if has_bias then
    let Gweights := col_slice G 0 D
    let Gweights1 := assign_gemm (1 / (X.m : ℚ)) dZ false X false β Gweights
    let G1 := writeSlice G 0 Gweights1
    setCol G1 D (meanRows dZ)
  else
    assign_gemm (1 / (X.m : ℚ)) dZ false X false β G

/-- Dimension descriptor `GLMDims`. -/
structure GLMDims where
  fit_intercept : Bool
  C : ℕ
  D : ℕ
  dims : ℕ
  n_param : ℕ

/-- The `GLMDims(C, D, fit_intercept)` constructor:
`dims = D + fit_intercept`, `n_param = dims * C`. -/
def mkGLMDims (C D : ℕ) (fi : Bool) : GLMDims :=
  ⟨fi, C, D, D + (if fi then 1 else 0), (D + (if fi then 1 else 0)) * C⟩

/-- Loss capability: the elementwise loss value `lz` and derivative `dlz`. -/
structure Loss where
  lz : ℚ → ℚ → ℚ
  dlz : ℚ → ℚ → ℚ

/-- `GLMBase::getLossAndDZ` (base impl, simple case `C = 1`): first a fused
map-then-sum-reduce producing `loss_val = Σ_i lz(y_i, z_i)·(1/N)` from the first
`ylen` flat entries of `Z`, then a `binaryOp` overwriting those flat entries with
`dlz(y_i, z_i)`.  Flat index `k` of the column-major buffer is entry
`(k % Z.m, k / Z.m)`. -/
def getLossAndDZ (loss : Loss) (Z : SimpleMat) (y : ℕ → ℚ) (ylen : ℕ) :
    ℚ × SimpleMat :=
  let invN : ℚ := 1 / (ylen : ℚ)
  let zflat : ℕ → ℚ := fun k => Z.data (k % Z.m) (k / Z.m)
  let loss_val := (Finset.range ylen).sum (fun i => loss.lz (y i) (zflat i) * invN)
  let Z1 : SimpleMat :=
    ⟨Z.m, Z.n, fun r c =>
      if r + c * Z.m < ylen then loss.dlz (y (r + c * Z.m)) (zflat (r + c * Z.m))
      else Z.data r c⟩
  (loss_val, Z1)

/-- `GLMBase::loss_grad`: forward pass into `Z`, loss pass mutating `Z` and
producing the scalar, backward pass into `G`.  Returns `(loss, G, Z)` after the
three phases. -/
def loss_grad (loss : Loss) (G W X : SimpleMat) (y : ℕ → ℚ) (ylen : ℕ)
    (Z : SimpleMat) (initGradZero : Bool) : ℚ × SimpleMat × SimpleMat :=
  let Z1 := linearFwd Z X W
  let p := getLossAndDZ loss Z1 y ylen
  let G1 := linearBwd G X p.2 initGradZero
  (p.1, G1, p.2)

/-- The state a bound objective (`GLMWithData`) touches: the dataset `X`, `y`,
the scratch buffer `Z`, and the flat weight and gradient buffers supplied per
call.  `N` is the sample count. -/
structure GLMState where
  Xs : SimpleMat
  ys : ℕ → ℚ
  N : ℕ
  Zs : SimpleMat
  wFlat : ℕ → ℚ
  gradFlat : ℕ → ℚ

/-- A column-major `m × n` matrix view over a flat buffer (`Mat W(wFlat.data, C, dims)`). -/
def matView (buf : ℕ → ℚ) (m n : ℕ) : SimpleMat :=
  ⟨m, n, fun i j => buf (i + j * m)⟩

/-- Write an `m × n` matrix back through its column-major view into a flat
buffer; entries beyond the view's extent keep their previous values. -/
def writeFlat (buf : ℕ → ℚ) (m n : ℕ) (M : SimpleMat) : ℕ → ℚ :=
  fun k => if k < m * n then M.data (k % m) (k / m) else buf k

/-- `GLMWithData::operator()`: reinterpret the flat weight and gradient buffers
as `C × dims` views, run `loss_grad` (with the gradient-overwrite default
`initGradZero = true`), and return the host scalar.  The synchronisation barrier
of the source is observable here only as the scalar being returned by value; the
state after the call records the mutation of `Z` and of the gradient buffer. -/
def callObjective (loss : Loss) (d : GLMDims) (s : GLMState) : ℚ × GLMState :=
  let W := matView s.wFlat d.C d.dims
  let G := matView s.gradFlat d.C d.dims
  let r := loss_grad loss G W s.Xs s.ys s.N s.Zs true
  (r.1, ⟨s.Xs, s.ys, s.N, r.2.2, s.wFlat, writeFlat s.gradFlat d.C d.dims r.2.1⟩)

/-! ### Concrete instances used by witnesses and the end-to-end scenario -/

/-- Squared-error loss: `lz(y,z) = (z-y)²/2`, `dlz(y,z) = z-y`. -/
def sqLoss : Loss :=
  ⟨fun y z => (z - y) ^ 2 / 2, fun y z => z - y⟩

/-- The `N × D = 2 × 1` data matrix `X = [[1],[2]]` of the end-to-end scenario. -/
def Xe2e : SimpleMat :=
  ⟨2, 1, fun i _j => if i = 0 then 1 else 2⟩

/-- The targets `y = [0, 1]` of the end-to-end scenario. -/
def ye2e : ℕ → ℚ :=
  fun i => if i = 0 then 0 else 1

/-- The `C × dims = 1 × 2` weight matrix `[weight = 2, bias = 0]`. -/
def We2e : SimpleMat :=
  ⟨1, 2, fun _i j => if j = 0 then 2 else 0⟩

/-- A zero-initialised `1 × 2` scratch/gradient matrix. -/
def Ze2e : SimpleMat :=
  ⟨1, 2, fun _i _j => 0⟩

/-- A `1 × 2` pre-activation buffer holding `[2, 4]`, used as a concrete input. -/
def Zc1 : SimpleMat :=
  ⟨1, 2, fun _i j => if j = 0 then 2 else 4⟩

/-! ### Helper lemmas characterising the linear transforms entrywise -/

theorem linearBwd_n (G X dZ : SimpleMat) (s : Bool) : (linearBwd G X dZ s).n = G.n := by
  simp only [linearBwd]
  split <;> rfl

theorem linearFwd_data_nobias (Z X W : SimpleMat) (h : X.n = W.n) (i j : ℕ) :
    (linearFwd Z X W).data i j
      = (Finset.range X.n).sum (fun l => W.data i l * X.data j l) := by
  simp only [linearFwd]
  rw [if_neg (by omega)]
  simp [assign_gemm, opMat, h]

theorem linearFwd_data_bias (Z X W : SimpleMat) (h : X.n ≠ W.n) (i j : ℕ) :
    (linearFwd Z X W).data i j
      = (Finset.range X.n).sum (fun l => W.data i l * X.data j l) + W.data i X.n := by
  simp only [linearFwd]
  rw [if_pos h]
  simp [assign_gemm, opMat, col_slice, col_ref]

theorem linearBwd_data_feat (G X dZ : SimpleMat) (s : Bool)
    (hG : G.n = X.n ∨ G.n = X.n + 1) (i j : ℕ) (hj : j < X.n) :
    (linearBwd G X dZ s).data i j
      = (1 / (X.m : ℚ)) * (Finset.range dZ.n).sum (fun l => dZ.data i l * X.data l j)
        + (if s then (0 : ℚ) else 1) * G.data i j := by
  rcases hG with h | h
  · simp only [linearBwd]
    rw [if_neg (by omega)]
    simp [assign_gemm, opMat]
  · simp only [linearBwd]
    rw [if_pos (by omega)]
    simp only [setCol]
    rw [if_neg (by omega)]
    simp only [writeSlice, assign_gemm, opMat, col_slice]
    rw [if_pos (by constructor <;> omega)]
    simp

theorem linearBwd_data_bias (G X dZ : SimpleMat) (s : Bool) (h : X.n ≠ G.n) (i : ℕ) :
    (linearBwd G X dZ s).data i X.n = meanRows dZ i := by
  simp only [linearBwd]
  rw [if_pos h]
  simp [setCol]

/-! ### Claims -/

/-- C1: for the single-class case (`Z.m = 1`), `getLossAndDZ` is two-phase on one
buffer: the returned scalar equals `(1/N) · Σ_i lossValue(y_i, z_i)` over the
original pre-activation values `z_i = Z.data 0 i`, and afterwards entry `i` of the
buffer equals `lossDerivative(y_i, z_i)` evaluated at the original `z_i`. -/
theorem getLossAndDZ_two_phase (loss : Loss) (Z : SimpleMat) (y : ℕ → ℚ) (N : ℕ)
    (hm : Z.m = 1) :
    (getLossAndDZ loss Z y N).1
        = (1 / (N : ℚ)) * (Finset.range N).sum (fun i => loss.lz (y i) (Z.data 0 i)) ∧
    ∀ i, i < N →
      ((getLossAndDZ loss Z y N).2).data 0 i = loss.dlz (y i) (Z.data 0 i) := by
  constructor
  · simp only [getLossAndDZ, hm]
    rw [Finset.mul_sum]
    refine Finset.sum_congr rfl ?_
    intro i _
    simp [Nat.mod_one, Nat.div_one]
    ring
  · intro i hi
    simp only [getLossAndDZ, hm]
    simp [Nat.mod_one, Nat.div_one, hi]

theorem getLossAndDZ_two_phase_witness :
    Zc1.m = 1 ∧
    ((getLossAndDZ sqLoss Zc1 ye2e 2).1
        = (1 / (2 : ℚ)) * (Finset.range 2).sum (fun i => sqLoss.lz (ye2e i) (Zc1.data 0 i)) ∧
     ∀ i, i < 2 →
       ((getLossAndDZ sqLoss Zc1 ye2e 2).2).data 0 i = sqLoss.dlz (ye2e i) (Zc1.data 0 i)) :=
  ⟨rfl, getLossAndDZ_two_phase sqLoss Zc1 ye2e 2 rfl⟩

/-- C2: `linearFwd` without an intercept (`W.n = X.n`) overwrites `Z` with
`W · Xᵗ`; with an intercept (`W.n = X.n + 1`) it broadcasts the bias column and
accumulates, producing `Wfeat · Xᵗ + broadcast(bias)`; and in both cases the
result is independent of the incoming contents of `Z`. -/
theorem linearFwd_spec (Z X W : SimpleMat) :
    (X.n = W.n → ∀ i j, (linearFwd Z X W).data i j
        = (Finset.range X.n).sum (fun l => W.data i l * X.data j l)) ∧
    (W.n = X.n + 1 → ∀ i j, (linearFwd Z X W).data i j
        = (Finset.range X.n).sum (fun l => W.data i l * X.data j l) + W.data i X.n) ∧
    (∀ Z2 : SimpleMat, Z2.m = Z.m → Z2.n = Z.n → linearFwd Z X W = linearFwd Z2 X W) := by
  refine ⟨fun h i j => linearFwd_data_nobias Z X W h i j,
          fun h i j => linearFwd_data_bias Z X W (by omega) i j, ?_⟩
  intro Z2 h2m h2n
  simp only [linearFwd]
  by_cases hb : X.n ≠ W.n
  · rw [if_pos hb, if_pos hb, h2m, h2n]
  · rw [if_neg hb, if_neg hb]
    refine SimpleMat.ext h2m.symm h2n.symm ?_
    funext i j
    simp [assign_gemm]

/-- A `1 × 1` weight matrix (no bias column) used by witnesses. -/
def Wnb : SimpleMat :=
  ⟨1, 1, fun _i _j => 2⟩

theorem linearFwd_spec_witness :
    ((Xe2e.n = Wnb.n) ∧ ∀ i j, (linearFwd Ze2e Xe2e Wnb).data i j
        = (Finset.range Xe2e.n).sum (fun l => Wnb.data i l * Xe2e.data j l)) ∧
    ((We2e.n = Xe2e.n + 1) ∧ ∀ i j, (linearFwd Ze2e Xe2e We2e).data i j
        = (Finset.range Xe2e.n).sum (fun l => We2e.data i l * Xe2e.data j l)
          + We2e.data i Xe2e.n) ∧
    (Zc1.m = Ze2e.m ∧ Zc1.n = Ze2e.n ∧ linearFwd Ze2e Xe2e We2e = linearFwd Zc1 Xe2e We2e) :=
  ⟨⟨rfl, (linearFwd_spec Ze2e Xe2e Wnb).1 rfl⟩,
   ⟨rfl, (linearFwd_spec Ze2e Xe2e We2e).2.1 rfl⟩,
   ⟨rfl, rfl, (linearFwd_spec Ze2e Xe2e We2e).2.2 Zc1 rfl rfl⟩⟩

/-- C3: `linearBwd` updates the feature-weight block of `G` (columns `j < D`)
according to `Gfeat ← (1/N)·dZ·Xᵗ + β·Gfeat`, entrywise
`(1/N)·Σ_l dZ[i,l]·X[l,j] + β·G[i,j]`, with `β = 0` when `setZero` and `β = 1`
otherwise. -/
theorem linearBwd_weights_spec (G X dZ : SimpleMat) (setZero : Bool)
    (hdZ : dZ.n = X.m) (hG : G.n = X.n ∨ G.n = X.n + 1) :
    ∀ i j, j < X.n →
      (linearBwd G X dZ setZero).data i j
        = (1 / (X.m : ℚ)) * (Finset.range X.m).sum (fun l => dZ.data i l * X.data l j)
          + (if setZero then (0 : ℚ) else 1) * G.data i j := by
  intro i j hj
  rw [linearBwd_data_feat G X dZ setZero hG i j hj, hdZ]

theorem linearBwd_weights_spec_witness :
    Zc1.n = Xe2e.m ∧ (Ze2e.n = Xe2e.n ∨ Ze2e.n = Xe2e.n + 1) ∧
    ∀ i j, j < Xe2e.n →
      (linearBwd Ze2e Xe2e Zc1 true).data i j
        = (1 / (Xe2e.m : ℚ))
            * (Finset.range Xe2e.m).sum (fun l => Zc1.data i l * Xe2e.data l j)
          + (if true then (0 : ℚ) else 1) * Ze2e.data i j :=
  ⟨rfl, Or.inr rfl, linearBwd_weights_spec Ze2e Xe2e Zc1 true rfl (Or.inr rfl)⟩

/-- C4: whenever the bias case applies in `linearBwd` (`X.n ≠ G.n`), the bias
column `D = X.n` of the result equals the per-class mean of `dZ` over the
samples, for every value of the `setZero` flag and every prior content of `G`. -/
theorem linearBwd_bias_spec (G X dZ : SimpleMat) (setZero : Bool) (h : X.n ≠ G.n) :
    ∀ i, (linearBwd G X dZ setZero).data i X.n
      = (Finset.range dZ.n).sum (fun j => dZ.data i j) / (dZ.n : ℚ) :=
  fun i => linearBwd_data_bias G X dZ setZero h i

theorem linearBwd_bias_spec_witness :
    Xe2e.n ≠ Ze2e.n ∧
    ∀ i, (linearBwd Ze2e Xe2e Zc1 false).data i Xe2e.n
      = (Finset.range Zc1.n).sum (fun j => Zc1.data i j) / (Zc1.n : ℚ) :=
  ⟨by decide, linearBwd_bias_spec Ze2e Xe2e Zc1 false (by decide)⟩

/-- A `1 × 2` zero gradient buffer with a bias column, for the C7 scenario. -/
def G7 : SimpleMat :=
  ⟨1, 2, fun _i _j => 0⟩

/-- A `1 × 1` data matrix `X = [[1]]` for the C7 scenario. -/
def X7 : SimpleMat :=
  ⟨1, 1, fun _i _j => 1⟩

/-- A `1 × 1` matrix `dZ = [[1]]` for the C7 scenario. -/
def dZ7 : SimpleMat :=
  ⟨1, 1, fun _i _j => 1⟩

/-- C7 counterexample: after an overwriting call followed by two consecutive
accumulating calls, the feature-weight entry is three times the overwrite value,
not twice: with `G = 0 (1×2)`, `X = dZ = [[1]]`, the overwrite call yields
feature entry `1`, and the state after the two accumulate calls holds `3 ≠ 2`. -/
theorem linearBwd_double_accumulate_cex :
    (linearBwd (linearBwd (linearBwd G7 X7 dZ7 true) X7 dZ7 false) X7 dZ7 false).data 0 0
      ≠ 2 * (linearBwd G7 X7 dZ7 true).data 0 0 := by
  norm_num [linearBwd, assign_gemm, opMat, col_slice, writeSlice, setCol, meanRows,
    G7, X7, dZ7, Finset.sum_range_succ]

/-- C7 (amended): two consecutive overwriting calls leave `G` equal after each
call; after an overwriting call, the first accumulating call leaves the
feature-weight block at twice the overwrite value; the bias column is unchanged
by the repetition. -/
theorem linearBwd_repeat (G X dZ : SimpleMat) (hG : G.n = X.n ∨ G.n = X.n + 1) :
    (∀ i j, j < G.n →
      (linearBwd (linearBwd G X dZ true) X dZ true).data i j
        = (linearBwd G X dZ true).data i j) ∧
    (∀ i j, j < X.n →
      (linearBwd (linearBwd G X dZ true) X dZ false).data i j
        = 2 * (linearBwd G X dZ true).data i j) ∧
    (∀ i, G.n = X.n + 1 →
      (linearBwd (linearBwd G X dZ true) X dZ false).data i X.n
        = (linearBwd G X dZ true).data i X.n) := by
  have hG1 : (linearBwd G X dZ true).n = X.n ∨ (linearBwd G X dZ true).n = X.n + 1 := by
    rw [linearBwd_n]; exact hG
  refine ⟨?_, ?_, ?_⟩
  · intro i j hj
    rcases Nat.lt_or_ge j X.n with hlt | hge
    · rw [linearBwd_data_feat _ X dZ true hG1 i j hlt,
          linearBwd_data_feat G X dZ true hG i j hlt]
      simp
    · have hGn : G.n = X.n + 1 := by rcases hG with h | h <;> omega
      have hj' : j = X.n := by omega
      subst hj'
      rw [linearBwd_data_bias _ X dZ true (by rw [linearBwd_n]; omega) i,
          linearBwd_data_bias G X dZ true (by omega) i]
  · intro i j hj
    rw [linearBwd_data_feat _ X dZ false hG1 i j hj,
        linearBwd_data_feat G X dZ true hG i j hj]
    simp [two_mul]
  · intro i hGn
    rw [linearBwd_data_bias _ X dZ false (by rw [linearBwd_n]; omega) i,
        linearBwd_data_bias G X dZ true (by omega) i]

theorem linearBwd_repeat_witness :
    (G7.n = X7.n ∨ G7.n = X7.n + 1) ∧
    ((∀ i j, j < G7.n →
      (linearBwd (linearBwd G7 X7 dZ7 true) X7 dZ7 true).data i j
        = (linearBwd G7 X7 dZ7 true).data i j) ∧
    (∀ i j, j < X7.n →
      (linearBwd (linearBwd G7 X7 dZ7 true) X7 dZ7 false).data i j
        = 2 * (linearBwd G7 X7 dZ7 true).data i j) ∧
    (∀ i, G7.n = X7.n + 1 →
      (linearBwd (linearBwd G7 X7 dZ7 true) X7 dZ7 false).data i X7.n
        = (linearBwd G7 X7 dZ7 true).data i X7.n)) :=
  ⟨Or.inr rfl, linearBwd_repeat G7 X7 dZ7 (Or.inr rfl)⟩

/-- C8: the dimension descriptor satisfies `dims = D + 1` when `fit_intercept`
is true, `dims = D` when it is false, and `n_param = dims * C`, for every
`C`, `D` and flag value. -/
theorem mkGLMDims_spec :
    ∀ (C D : ℕ) (fi : Bool),
      (mkGLMDims C D true).dims = D + 1 ∧
      (mkGLMDims C D false).dims = D ∧
      (mkGLMDims C D fi).n_param = (mkGLMDims C D fi).dims * C := by
  intro C D fi
  refine ⟨rfl, rfl, rfl⟩

/-- C5: end-to-end evaluation with `D = 1`, `C = 1`, `N = 2`, intercept fitted,
`X = [[1],[2]]`, `y = [0,1]`, `W = [2, 0]` and the squared-error loss: the
forward pass produces `Z = [2, 4]`; `loss_grad` returns the scalar `3.25`,
mutates `Z` to `[2, 3]`, and produces feature-weight gradient `4` and bias
gradient `2.5`. -/
theorem loss_grad_e2e :
    (linearFwd Ze2e Xe2e We2e).data 0 0 = 2 ∧
    (linearFwd Ze2e Xe2e We2e).data 0 1 = 4 ∧
    (loss_grad sqLoss Ze2e We2e Xe2e ye2e 2 Ze2e true).1 = 13 / 4 ∧
    (loss_grad sqLoss Ze2e We2e Xe2e ye2e 2 Ze2e true).2.2.data 0 0 = 2 ∧
    (loss_grad sqLoss Ze2e We2e Xe2e ye2e 2 Ze2e true).2.2.data 0 1 = 3 ∧
    (loss_grad sqLoss Ze2e We2e Xe2e ye2e 2 Ze2e true).2.1.data 0 0 = 4 ∧
    (loss_grad sqLoss Ze2e We2e Xe2e ye2e 2 Ze2e true).2.1.data 0 1 = 5 / 2 := by
  refine ⟨?_, ?_, ?_, ?_, ?_, ?_, ?_⟩ <;>
    norm_num [loss_grad, linearFwd, linearBwd, getLossAndDZ, assign_gemm, opMat,
      col_ref, col_slice, writeSlice, setCol, meanRows, sqLoss, Xe2e, ye2e, We2e,
      Ze2e, Finset.sum_range_succ]

/-- A `1 × 1` gradient buffer without a bias column, for witnesses. -/
def Gnb : SimpleMat :=
  ⟨1, 1, fun _i _j => 0⟩

/-- C9: the transforms decide the bias case solely by comparing column counts:
`linearFwd` computes the plain overwrite gemm whenever `X.n = W.n` (no dimension
descriptor or `fit_intercept` flag is consulted — the functions take none), and
whenever `X.n ≠ W.n` (respectively `X.n ≠ G.n`) the bias branch is taken with
bias column index `D = X.n`, derived from `X`. -/
theorem linear_branch_by_shape (Z X W G dZ : SimpleMat) (setZero : Bool) :
    (X.n = W.n → linearFwd Z X W = assign_gemm 1 W false X true 0 Z) ∧
    (X.n ≠ W.n → ∀ i j, (linearFwd Z X W).data i j
        = (Finset.range X.n).sum (fun l => W.data i l * X.data j l) + W.data i X.n) ∧
    (X.n = G.n → linearBwd G X dZ setZero
        = assign_gemm (1 / (X.m : ℚ)) dZ false X false
            (if setZero then (0 : ℚ) else 1) G) ∧
    (X.n ≠ G.n → ∀ i, (linearBwd G X dZ setZero).data i X.n = meanRows dZ i) := by
  refine ⟨?_, fun h i j => linearFwd_data_bias Z X W h i j, ?_,
          fun h i => linearBwd_data_bias G X dZ setZero h i⟩
  · intro h
    simp only [linearFwd]
    rw [if_neg (by omega)]
  · intro h
    simp only [linearBwd]
    rw [if_neg (by omega)]

theorem linear_branch_by_shape_witness :
    (Xe2e.n = Wnb.n ∧ linearFwd Ze2e Xe2e Wnb = assign_gemm 1 Wnb false Xe2e true 0 Ze2e) ∧
    (Xe2e.n ≠ We2e.n ∧ ∀ i j, (linearFwd Ze2e Xe2e We2e).data i j
        = (Finset.range Xe2e.n).sum (fun l => We2e.data i l * Xe2e.data j l)
          + We2e.data i Xe2e.n) ∧
    (Xe2e.n = Gnb.n ∧ linearBwd Gnb Xe2e Zc1 false
        = assign_gemm (1 / (Xe2e.m : ℚ)) Zc1 false Xe2e false
            (if false then (0 : ℚ) else 1) Gnb) ∧
    (Xe2e.n ≠ Ze2e.n ∧ ∀ i, (linearBwd Ze2e Xe2e Zc1 false).data i Xe2e.n = meanRows Zc1 i) :=
  ⟨⟨rfl, (linear_branch_by_shape Ze2e Xe2e Wnb Gnb Zc1 false).1 rfl⟩,
   ⟨by decide, (linear_branch_by_shape Ze2e Xe2e We2e Gnb Zc1 false).2.1 (by decide)⟩,
   ⟨rfl, (linear_branch_by_shape Ze2e Xe2e Wnb Gnb Zc1 false).2.2.1 rfl⟩,
   ⟨by decide, (linear_branch_by_shape Ze2e Xe2e Wnb Ze2e Zc1 false).2.2.2 (by decide)⟩⟩

/-- C6: the bound objective's callable reinterprets the flat weight and gradient
buffers as `C × dims` views, runs the composed `loss_grad`, and returns its
scalar; its only state effects are overwriting the gradient buffer through the
view and the scratch buffer `Z` — the dataset `X`, `y` and the weight buffer are
left unchanged. -/
theorem callObjective_spec (loss : Loss) (d : GLMDims) (s : GLMState) :
    (callObjective loss d s).2.Xs = s.Xs ∧
    (callObjective loss d s).2.ys = s.ys ∧
    (callObjective loss d s).2.N = s.N ∧
    (callObjective loss d s).2.wFlat = s.wFlat ∧
    (callObjective loss d s).1
      = (loss_grad loss (matView s.gradFlat d.C d.dims) (matView s.wFlat d.C d.dims)
          s.Xs s.ys s.N s.Zs true).1 ∧
    (callObjective loss d s).2.gradFlat
      = writeFlat s.gradFlat d.C d.dims
          (loss_grad loss (matView s.gradFlat d.C d.dims) (matView s.wFlat d.C d.dims)
            s.Xs s.ys s.N s.Zs true).2.1 ∧
    (callObjective loss d s).2.Zs
      = (loss_grad loss (matView s.gradFlat d.C d.dims) (matView s.wFlat d.C d.dims)
          s.Xs s.ys s.N s.Zs true).2.2 :=
  ⟨rfl, rfl, rfl, rfl, rfl, rfl, rfl⟩

theorem linearBwd_prior_independent (Ga Gb X dZ : SimpleMat)
    (hab : Ga.n = Gb.n) (hG : Ga.n = X.n ∨ Ga.n = X.n + 1) (i j : ℕ) (hj : j < Ga.n) :
    (linearBwd Ga X dZ true).data i j = (linearBwd Gb X dZ true).data i j := by
  rcases Nat.lt_or_ge j X.n with hlt | hge
  · rw [linearBwd_data_feat Ga X dZ true hG i j hlt,
        linearBwd_data_feat Gb X dZ true (hab ▸ hG) i j hlt]
    simp
  · have hGn : Ga.n = X.n + 1 := by rcases hG with h | h <;> omega
    have hj' : j = X.n := by omega
    subst hj'
    rw [linearBwd_data_bias Ga X dZ true (by omega) i,
        linearBwd_data_bias Gb X dZ true (by omega) i]

/-- C10: the bound objective's callable always runs the backward pass with the
gradient-overwrite default, so two invocations that differ only in the prior
contents of the gradient buffer return the same scalar and leave the same
contents in the gradient vector (its `n_param` entries). -/
theorem callObjective_grad_prior_independent (loss : Loss) (d : GLMDims)
    (X Z : SimpleMat) (y : ℕ → ℚ) (N : ℕ) (w g1 g2 : ℕ → ℚ)
    (hdims : d.dims = X.n ∨ d.dims = X.n + 1)
    (hnp : d.n_param = d.dims * d.C) :
    (callObjective loss d ⟨X, y, N, Z, w, g1⟩).1
      = (callObjective loss d ⟨X, y, N, Z, w, g2⟩).1 ∧
    ∀ k, k < d.n_param →
      (callObjective loss d ⟨X, y, N, Z, w, g1⟩).2.gradFlat k
        = (callObjective loss d ⟨X, y, N, Z, w, g2⟩).2.gradFlat k := by
  constructor
  · rfl
  · intro k hk
    have hk1 : k < d.dims * d.C := by rw [← hnp]; exact hk
    have hk' : k < d.C * d.dims := by rw [Nat.mul_comm]; exact hk1
    rcases Nat.eq_zero_or_pos d.C with h0 | hC
    · rw [h0, Nat.zero_mul] at hk'
      omega
    have hj : k / d.C < d.dims := (Nat.div_lt_iff_lt_mul hC).2 hk1
    simp only [callObjective, loss_grad, writeFlat]
    rw [if_pos hk', if_pos hk']
    exact linearBwd_prior_independent (matView g1 d.C d.dims) (matView g2 d.C d.dims)
      X _ rfl hdims (k % d.C) (k / d.C) hj

/-- The dimension descriptor of the witness scenario: `C = 1`, `D = 1`,
intercept fitted. -/
def de2e : GLMDims := mkGLMDims 1 1 true

/-- The flat weight buffer `[2, 0]` of the witness scenario. -/
def wfl : ℕ → ℚ := fun k => if k = 0 then 2 else 0

/-- A prior gradient buffer holding zeros. -/
def g1c : ℕ → ℚ := fun _k => 0

/-- A different prior gradient buffer holding sevens. -/
def g2c : ℕ → ℚ := fun _k => 7

theorem callObjective_grad_prior_independent_witness :
    (de2e.dims = Xe2e.n ∨ de2e.dims = Xe2e.n + 1) ∧
    de2e.n_param = de2e.dims * de2e.C ∧
    ((callObjective sqLoss de2e ⟨Xe2e, ye2e, 2, Ze2e, wfl, g1c⟩).1
       = (callObjective sqLoss de2e ⟨Xe2e, ye2e, 2, Ze2e, wfl, g2c⟩).1 ∧
     ∀ k, k < de2e.n_param →
       (callObjective sqLoss de2e ⟨Xe2e, ye2e, 2, Ze2e, wfl, g1c⟩).2.gradFlat k
         = (callObjective sqLoss de2e ⟨Xe2e, ye2e, 2, Ze2e, wfl, g2c⟩).2.gradFlat k) :=
  ⟨Or.inr rfl, rfl,
   callObjective_grad_prior_independent sqLoss de2e Xe2e Ze2e ye2e 2 wfl g1c g2c
     (Or.inr rfl) rfl⟩

end ML.GLM
